import Mathlib

/-!
Shallow embedding of the resilient ingestion pipeline
(`sigggy/SN-personalization`): cursor pagination, threshold gate,
chunked harvesting, retrying HTTP client, adaptive batch writer,
resumable source stream and rate limiter.
-/

/-- Python truthiness test `if before:` on an optional cursor value;
cursor values extracted from a payload's `id` field are modelled as
`Nat`, with Python truthiness making `0` falsy. -/
def truthyCursor : Option Nat → Bool
  | none => false
  | some c => c ≠ 0

/-- A raw API payload; the pagination code only reads `.get("id")`,
which is `none` when the field is missing. -/
structure RawPayload where
  id : Option Nat
  deriving DecidableEq, Repr

/-- Query parameters of one paginated `get_json` call:
`{"userId": ..., "limit": ..., "before": ...?}` (the `before` key is
present only when the cursor variable is truthy). -/
structure Params where
  userId : String
  limit : Nat
  before : Option Nat
  deriving DecidableEq, Repr

/-- Errors surfaced by `get_json` (raised `requests.HTTPError` etc.). -/
inductive ApiError where
  | notFound (msg : String)
  | http (status : Nat) (msg : String)
  | other (msg : String)
  deriving DecidableEq, Repr

/-- A client's `get_json` viewed as a pure function of the request
parameters (the stub endpoints used by the claims are deterministic). -/
abbrev GetJson := Params → Except ApiError (List RawPayload)

/-- Splitting a list into consecutive chunks of size `p` (last chunk
possibly shorter); reference shape of the pages emitted by the
pagination loop and of the chunk accumulation loops. -/
def chunkPages (p : Nat) : List α → List (List α)
  | [] => []
  | a :: l => (a :: l.take (p - 1)) :: chunkPages p (l.drop (p - 1))
termination_by l => l.length
decreasing_by
  simp only [List.length_drop, List.length_cons]
  omega

theorem chunkPages_nil (p : Nat) : chunkPages p ([] : List α) = [] := by
  simp [chunkPages]

theorem chunkPages_cons (p : Nat) (a : α) (l : List α) :
    chunkPages p (a :: l) = (a :: l.take (p - 1)) :: chunkPages p (l.drop (p - 1)) := by
  simp [chunkPages]

/-- For `p ≥ 1`, `chunkPages` on a nonempty list takes the first `p`
elements and recurses on the rest. -/
theorem chunkPages_eq_take_drop (p : Nat) (hp : 1 ≤ p) (l : List α) (hl : l ≠ []) :
    chunkPages p l = l.take p :: chunkPages p (l.drop p) := by
  cases l with
  | nil => exact absurd rfl hl
  | cons a l =>
    rw [chunkPages_cons]
    have h1 : (a :: l).take p = a :: l.take (p - 1) := by
      cases p with
      | zero => omega
      | succ q => simp
    have h2 : (a :: l).drop p = l.drop (p - 1) := by
      cases p with
      | zero => omega
      | succ q => simp
    rw [h1, h2]

/-- Joining the chunks gives back the list. -/
theorem chunkPages_flatten (p : Nat) (l : List α) :
    (chunkPages p l).flatten = l := by
  induction l using chunkPages.induct p with
  | case1 => simp [chunkPages]
  | case2 a l ih =>
    rw [chunkPages_cons]
    simp only [List.flatten_cons, List.cons_append, ih]
    rw [List.take_append_drop]

/-- Number of chunks is `⌈length / p⌉` when `p ≥ 1`. -/
theorem chunkPages_length (p : Nat) (hp : 1 ≤ p) (l : List α) :
    (chunkPages p l).length = (l.length + p - 1) / p := by
  induction l using chunkPages.induct p with
  | case1 =>
    simp only [chunkPages_nil, List.length_nil]
    rw [Nat.div_eq_of_lt (by omega)]
  | case2 a l ih =>
    rw [chunkPages_cons]
    simp only [List.length_cons, List.length_drop] at ih ⊢
    rw [ih]
    rcases Nat.lt_or_ge l.length (p - 1) with h | h
    · have h1 : l.length - (p - 1) = 0 := by omega
      have h2 : (l.length + 1 + p - 1) / p = 1 :=
        Nat.div_eq_of_lt_le (by omega) (by omega)
      have h3 : (0 + p - 1) / p = 0 := Nat.div_eq_of_lt (by omega)
      rw [h1, h2, h3]
    · have h1 : l.length - (p - 1) + p - 1 = l.length := by omega
      have h2 : l.length + 1 + p - 1 = l.length + p := by omega
      rw [h1, h2, Nat.add_div_right _ (by omega)]

theorem chunkPages_eq_nil_iff (p : Nat) (l : List α) :
    chunkPages p l = [] ↔ l = [] := by
  cases l with
  | nil => simp [chunkPages_nil]
  | cons a l => simp [chunkPages_cons]

/-- The final chunk has length `len % p`, or `p` when `p` divides `len`. -/
theorem chunkPages_getLast?_length (p : Nat) (hp : 1 ≤ p) (l : List α) (hl : l ≠ []) :
    ∃ c, (chunkPages p l).getLast? = some c ∧
      c.length = (if l.length % p = 0 then p else l.length % p) := by
  induction l using chunkPages.induct p with
  | case1 => exact absurd rfl hl
  | case2 a l ih =>
    rw [chunkPages_cons]
    by_cases hd : l.drop (p - 1) = []
    · have hlen : l.length ≤ p - 1 := by
        have := congrArg List.length hd
        simp only [List.length_drop, List.length_nil] at this
        omega
      rw [hd, chunkPages_nil]
      refine ⟨a :: l.take (p - 1), rfl, ?_⟩
      simp only [List.length_cons, List.length_take]
      have hmin : min (p - 1) l.length = l.length := by omega
      rw [hmin]
      rcases Nat.lt_or_ge (l.length + 1) p with h | h
      · rw [Nat.mod_eq_of_lt h, if_neg (by omega)]
      · have hp1 : l.length + 1 = p := by omega
        rw [hp1, if_pos (Nat.mod_self p)]
    · obtain ⟨c, hc, hclen⟩ := ih hd
      have hrest : chunkPages p (l.drop (p - 1)) ≠ [] := by
        rw [ne_eq, chunkPages_eq_nil_iff]
        exact hd
      refine ⟨c, ?_, ?_⟩
      · cases hr : chunkPages p (l.drop (p - 1)) with
        | nil => exact absurd hr hrest
        | cons x xs =>
          rw [List.getLast?_cons_cons]
          rw [hr] at hc
          exact hc
      · have hlen : p - 1 < l.length := by
          by_contra hcon
          exact hd (List.drop_eq_nil_of_le (by omega))
        have hmod : (l.length + 1) % p = (l.length - (p - 1)) % p := by
          have h1 : l.length + 1 = (l.length - (p - 1)) + p := by omega
          rw [h1, Nat.add_mod_right]
        simp only [List.length_cons, List.length_drop] at hclen ⊢
        rw [hmod]
        exact hclen

/-- Every chunk except possibly the last has exactly `p` elements. -/
theorem chunkPages_dropLast_length (p : Nat) (hp : 1 ≤ p) (l : List α) :
    ∀ c ∈ (chunkPages p l).dropLast, c.length = p := by
  induction l using chunkPages.induct p with
  | case1 =>
    rw [chunkPages_nil]
    intro c hc
    simp at hc
  | case2 a l ih =>
    rw [chunkPages_cons]
    by_cases hd : l.drop (p - 1) = []
    · rw [hd, chunkPages_nil]
      intro c hc
      simp at hc
    · have hrest : chunkPages p (l.drop (p - 1)) ≠ [] := by
        rw [ne_eq, chunkPages_eq_nil_iff]
        exact hd
      intro c hc
      rw [List.dropLast_cons_of_ne_nil hrest] at hc
      rcases List.mem_cons.mp hc with h | h
      · subst h
        have hlen : p - 1 < l.length := by
          by_contra hcon
          exact hd (List.drop_eq_nil_of_le (by omega))
        simp only [List.length_cons, List.length_take]
        omega
      · exact ih c h

/-- Every chunk is nonempty and no longer than `p`. -/
theorem chunkPages_mem_length (p : Nat) (hp : 1 ≤ p) (l : List α) :
    ∀ c ∈ chunkPages p l, c ≠ [] ∧ c.length ≤ p := by
  induction l using chunkPages.induct p with
  | case1 =>
    rw [chunkPages_nil]
    intro c hc
    simp at hc
  | case2 a l ih =>
    rw [chunkPages_cons]
    intro c hc
    rcases List.mem_cons.mp hc with h | h
    · subst h
      refine ⟨by simp, ?_⟩
      simp only [List.length_cons, List.length_take]
      omega
    · exact ih c h

/-! ## Cursor Paginator: `_fetch_bet_pages` / `fetch_all_bet_payloads`
(src/manifold/etl/src/extract/bets.py, lines 59-93). The Python
`while True` loop is embedded fuel-indexed; every theorem supplies
enough fuel for the concrete endpoint at hand. -/

/-- Body of `_fetch_bet_pages`: issue `get_json(BET_ENDPOINT,
{userId, limit, before?})`; break (returning the pages emitted so far)
on any error or an empty list; emit the page; break after emitting when
the page is short or the last element's `id` is not truthy; otherwise
continue with the derived cursor. -/
def fetchBetPagesAux (client : GetJson) (userId : String) (limit : Nat) :
    Nat → Option Nat → List (List RawPayload)
  | 0, _ => []
  | fuel + 1, before =>
    let params : Params :=
      { userId := userId, limit := limit,
        before := if truthyCursor before then before else none }
    match client params with
    | .error _ => []
    | .ok data =>
      if data.isEmpty then []
      else if data.length < limit then [data]
      else
        let next := data.getLast?.bind RawPayload.id
        if truthyCursor next then
          data :: fetchBetPagesAux client userId limit fuel next
        else [data]

/-- `fetch_all_bet_payloads`: concatenation of all pages of
`_fetch_bet_pages`, starting from cursor `None`. -/
def fetch_all_bet_payloads (client : GetJson) (userId : String)
    (limit fuel : Nat) : List RawPayload :=
  (fetchBetPagesAux client userId limit fuel none).flatten

/-- Stub endpoint state: `n` records whose `id` fields are the truthy
values `1, …, n` in recency order. -/
def stubRecords (n : Nat) : List RawPayload :=
  (List.range n).map fun i => ⟨some (i + 1)⟩

/-- Number of records consumed before the position a cursor denotes:
record `id = c` sits at index `c - 1`, so the page after it starts at
index `c`. -/
def stubBefore : Option Nat → Nat
  | none => 0
  | some c => c

/-- Stub paginated endpoint over `n` records: returns up to `limit`
records strictly after the cursor position. -/
def stubClient (n : Nat) : GetJson := fun p =>
  .ok (((stubRecords n).drop (stubBefore p.before)).take p.limit)

theorem stubRecords_length (n : Nat) : (stubRecords n).length = n := by
  simp [stubRecords]

theorem stubRecords_getElem? (n i : Nat) (h : i < n) :
    (stubRecords n)[i]? = some ⟨some (i + 1)⟩ := by
  simp [stubRecords, List.getElem?_map, List.getElem?_range, h]

/-- Cursor/position coherence for the stub: the cursor is either absent
(start of the drain) or the truthy id of the last consumed record. -/
def stubCursorOk (k : Nat) (c : Option Nat) : Prop :=
  (c = none ∧ k = 0) ∨ (c = some k ∧ k ≠ 0)

/-- Draining the stub endpoint from position `k` produces exactly the
`p`-sized chunking of the remaining records. -/
theorem fetchBetPagesAux_stub (n p : Nat) (hp : 1 ≤ p) (uid : String) :
    ∀ fuel k c, n - k < fuel → stubCursorOk k c →
      fetchBetPagesAux (stubClient n) uid p fuel c =
        chunkPages p ((stubRecords n).drop k) := by
  intro fuel
  induction fuel with
  | zero => intro k c hfuel _; omega
  | succ fuel ih =>
    intro k c hfuel hc
    have hparams : (if truthyCursor c then c else none) = c := by
      rcases hc with ⟨h1, _⟩ | ⟨h1, h2⟩ <;> subst h1 <;> simp [truthyCursor, *]
    have hbefore : stubBefore c = k := by
      rcases hc with ⟨h1, h2⟩ | ⟨h1, _⟩ <;> subst h1 <;> simp [stubBefore, *]
    set r := (stubRecords n).drop k with hr
    have hrlen : r.length = n - k := by
      simp [hr, stubRecords_length]
    rw [fetchBetPagesAux]
    simp only [stubClient, hparams, hbefore, ← hr]
    rcases Nat.lt_or_ge r.length p with hshort | hfull
    · -- the remaining records fit in one page (possibly empty)
      have htake : r.take p = r := List.take_of_length_le (by omega)
      rw [htake]
      by_cases hre : r = []
      · simp [hre, chunkPages_nil]
      · have : ¬r.isEmpty := by simp [List.isEmpty_iff, hre]
        simp only [this, Bool.false_eq_true, if_false, if_pos hshort]
        rw [chunkPages_eq_take_drop p hp r hre, htake,
          List.drop_eq_nil_of_le (by omega), chunkPages_nil]
    · -- a full page followed by the rest of the drain
      have hdlen : (r.take p).length = p := by
        simp [List.length_take]
        omega
      have hne : ¬(r.take p).isEmpty := by
        simp [List.isEmpty_iff, ← List.length_pos_iff_ne_nil, hdlen]
        omega
      have hnotshort : ¬(r.take p).length < p := by omega
      have hlast : (r.take p).getLast? = some ⟨some (k + p)⟩ := by
        rw [List.getLast?_eq_getElem?, hdlen]
        rw [List.getElem?_take_of_lt (by omega), hr, List.getElem?_drop]
        have hidx : k + (p - 1) < n := by omega
        rw [stubRecords_getElem? n _ hidx]
        have hsum : k + (p - 1) + 1 = k + p := by omega
        rw [hsum]
      have htruthy : truthyCursor (some (k + p)) = true := by
        simp only [truthyCursor, ne_eq, decide_not, Bool.not_eq_true',
          decide_eq_false_iff_not]
        omega
      simp only [hne, Bool.false_eq_true, if_false, hnotshort, hlast,
        Option.some_bind, htruthy, if_true]
      have hrec := ih (k + p) (some (k + p)) (by omega)
        (Or.inr ⟨rfl, by omega⟩)
      rw [hrec, chunkPages_eq_take_drop p hp r
        (by rw [← List.length_pos_iff_ne_nil]; omega)]
      congr 1
      rw [hr, List.drop_drop]

/-! ## Cursor Paginator: `stream_users`
(src/manifold/etl/src/extract/users.py, lines 10-37). -/

/-- Parameters of a `/users` call: `{"limit": ..., "before": ...?}`. -/
structure UserParams where
  limit : Nat
  before : Option Nat
  deriving DecidableEq, Repr

abbrev UsersGetJson := UserParams → Except ApiError (List RawPayload)

/-- `stream_users` loop body: fetch a batch; stop on an empty batch;
yield every user of the batch; derive the next cursor from the last
element's `id`; stop after a short batch or when `max_pages` is
reached. `get_json` errors propagate out of the generator, so the
embedding returns the users yielded before the error together with the
error. -/
def streamUsersAux (client : UsersGetJson) (pageSize : Nat)
    (maxPages : Option Nat) :
    Nat → Option Nat → Nat → List RawPayload × Option ApiError
  | 0, _, _ => ([], none)
  | fuel + 1, before, page =>
    let params : UserParams :=
      { limit := pageSize,
        before := if truthyCursor before then before else none }
    match client params with
    | .error e => ([], some e)
    | .ok batch =>
      if batch.isEmpty then ([], none)
      else
        let next := batch.getLast?.bind RawPayload.id
        let page1 := page + 1
        if batch.length < pageSize then (batch, none)
        else if (match maxPages with
                 | some mp => decide (mp ≤ page1)
                 | none => false) then (batch, none)
        else
          let rest := streamUsersAux client pageSize maxPages fuel next page1
          (batch ++ rest.1, rest.2)

/-- `stream_users(client, page_size=..., before=..., max_pages=...)`,
drained to a list. -/
def stream_users (client : UsersGetJson) (pageSize : Nat)
    (before : Option Nat) (maxPages : Option Nat) (fuel : Nat) :
    List RawPayload × Option ApiError :=
  streamUsersAux client pageSize maxPages fuel before 0

/-- Stub `/users` endpoint over `n` records. -/
def stubUsersClient (n : Nat) : UsersGetJson := fun p =>
  .ok (((stubRecords n).drop (stubBefore p.before)).take p.limit)

/-- Draining the stub `/users` endpoint from position `k` yields the
remaining records with no error. -/
theorem streamUsersAux_stub (n p : Nat) (hp : 1 ≤ p) :
    ∀ fuel k c page, n - k < fuel → stubCursorOk k c →
      streamUsersAux (stubUsersClient n) p none fuel c page =
        ((stubRecords n).drop k, none) := by
  intro fuel
  induction fuel with
  | zero => intro k c page hfuel _; omega
  | succ fuel ih =>
    intro k c page hfuel hc
    have hparams : (if truthyCursor c then c else none) = c := by
      rcases hc with ⟨h1, _⟩ | ⟨h1, h2⟩ <;> subst h1 <;> simp [truthyCursor, *]
    have hbefore : stubBefore c = k := by
      rcases hc with ⟨h1, h2⟩ | ⟨h1, _⟩ <;> subst h1 <;> simp [stubBefore, *]
    set r := (stubRecords n).drop k with hr
    have hrlen : r.length = n - k := by
      simp [hr, stubRecords_length]
    rw [streamUsersAux]
    simp only [stubUsersClient, hparams, hbefore, ← hr]
    rcases Nat.lt_or_ge r.length p with hshort | hfull
    · have htake : r.take p = r := List.take_of_length_le (by omega)
      rw [htake]
      by_cases hre : r = []
      · simp [hre]
      · have hne : ¬r.isEmpty := by simp [List.isEmpty_iff, hre]
        simp only [hne, Bool.false_eq_true, if_false, if_pos hshort]
    · have hdlen : (r.take p).length = p := by
        simp [List.length_take]
        omega
      have hne : ¬(r.take p).isEmpty := by
        simp [List.isEmpty_iff, ← List.length_pos_iff_ne_nil, hdlen]
        omega
      have hnotshort : ¬(r.take p).length < p := by omega
      have hlast : (r.take p).getLast? = some ⟨some (k + p)⟩ := by
        rw [List.getLast?_eq_getElem?, hdlen]
        rw [List.getElem?_take_of_lt (by omega), hr, List.getElem?_drop]
        have hidx : k + (p - 1) < n := by omega
        rw [stubRecords_getElem? n _ hidx]
        have hsum : k + (p - 1) + 1 = k + p := by omega
        rw [hsum]
      simp only [hne, Bool.false_eq_true, if_false, hnotshort, hlast,
        Option.some_bind]
      have hrec := ih (k + p) (some (k + p)) (page + 1) (by omega)
        (Or.inr ⟨rfl, by omega⟩)
      rw [hrec]
      have hjoin : r.take p ++ (stubRecords n).drop (k + p) = r := by
        have hdd : (stubRecords n).drop (k + p) = r.drop p := by
          rw [hr, List.drop_drop]
        rw [hdd, List.take_append_drop]
      simp [hjoin]

/-- C1: for every page size `p ≥ 1` and stub endpoint holding `n`
records, fully draining the cursor paginator (`fetch_all_bet_payloads`
and `stream_users`) yields exactly `n` payloads in `⌈n/p⌉` pages, the
last page having length `n % p` (or `p` when `p ∣ n`); a page shorter
than `p` is terminal (iteration stops after emitting it) and an empty
result stops with no page emitted. -/
theorem C1_cursor_paginator_drain (p n fuel : Nat) (uid : String)
    (hp : 1 ≤ p) (hfuel : n < fuel) :
    (fetchBetPagesAux (stubClient n) uid p fuel none).flatten = stubRecords n ∧
    (fetch_all_bet_payloads (stubClient n) uid p fuel).length = n ∧
    (fetchBetPagesAux (stubClient n) uid p fuel none).length = (n + p - 1) / p ∧
    (n ≠ 0 → ∃ lastPage,
      (fetchBetPagesAux (stubClient n) uid p fuel none).getLast? = some lastPage ∧
      lastPage.length = (if n % p = 0 then p else n % p)) ∧
    stream_users (stubUsersClient n) p none none fuel = (stubRecords n, none) ∧
    (∀ (client : GetJson) (u : String) (f : Nat) (c : Option Nat),
      client { userId := u, limit := p,
               before := if truthyCursor c then c else none } = .ok [] →
      fetchBetPagesAux client u p (f + 1) c = []) ∧
    (∀ (client : GetJson) (u : String) (f : Nat) (c : Option Nat)
        (data : List RawPayload),
      client { userId := u, limit := p,
               before := if truthyCursor c then c else none } = .ok data →
      data ≠ [] → data.length < p →
      fetchBetPagesAux client u p (f + 1) c = [data]) := by
  have hdrain := fetchBetPagesAux_stub n p hp uid fuel 0 none
    (by omega) (Or.inl ⟨rfl, rfl⟩)
  rw [List.drop_zero] at hdrain
  refine ⟨?_, ?_, ?_, ?_, ?_, ?_, ?_⟩
  · rw [hdrain, chunkPages_flatten]
  · rw [fetch_all_bet_payloads, hdrain, chunkPages_flatten, stubRecords_length]
  · rw [hdrain, chunkPages_length p hp, stubRecords_length]
  · intro hn
    have hne : stubRecords n ≠ [] := by
      rw [← List.length_pos_iff_ne_nil, stubRecords_length]
      omega
    obtain ⟨c, hc, hclen⟩ := chunkPages_getLast?_length p hp (stubRecords n) hne
    rw [stubRecords_length] at hclen
    exact ⟨c, by rw [hdrain]; exact hc, hclen⟩
  · have := streamUsersAux_stub n p hp fuel 0 none 0 (by omega) (Or.inl ⟨rfl, rfl⟩)
    rw [List.drop_zero] at this
    exact this
  · intro client u f c hcall
    rw [fetchBetPagesAux]
    simp [hcall]
  · intro client u f c data hcall hne hshort
    rw [fetchBetPagesAux]
    have : ¬data.isEmpty := by simp [List.isEmpty_iff, hne]
    simp [hcall, this, hshort]

/-- C1 witness: `p = 2`, `n = 5`, draining yields the 5 records in 3
pages with a terminal page of length 1. -/
theorem C1_cursor_paginator_drain_witness :
    (fetchBetPagesAux (stubClient 5) "u" 2 6 none).flatten = stubRecords 5 ∧
    (fetch_all_bet_payloads (stubClient 5) "u" 2 6).length = 5 ∧
    (fetchBetPagesAux (stubClient 5) "u" 2 6 none).length = (5 + 2 - 1) / 2 ∧
    (5 ≠ 0 → ∃ lastPage,
      (fetchBetPagesAux (stubClient 5) "u" 2 6 none).getLast? = some lastPage ∧
      lastPage.length = (if 5 % 2 = 0 then 2 else 5 % 2)) ∧
    stream_users (stubUsersClient 5) 2 none none 6 = (stubRecords 5, none) ∧
    (∀ (client : GetJson) (u : String) (f : Nat) (c : Option Nat),
      client { userId := u, limit := 2,
               before := if truthyCursor c then c else none } = .ok [] →
      fetchBetPagesAux client u 2 (f + 1) c = []) ∧
    (∀ (client : GetJson) (u : String) (f : Nat) (c : Option Nat)
        (data : List RawPayload),
      client { userId := u, limit := 2,
               before := if truthyCursor c then c else none } = .ok data →
      data ≠ [] → data.length < 2 →
      fetchBetPagesAux client u 2 (f + 1) c = [data]) :=
  C1_cursor_paginator_drain 2 5 6 "u" (by decide) (by decide)

/-! ## Cursor Paginator: `fetch_contracts_for_user`
(src/manifold_etl/src/extract/contracts.py, lines 16-64). -/

/-- A contract payload; the loop reads `.get("id")` (next cursor) and
`.get("creatorId")` (ownership filter). -/
structure ContractPayload where
  id : Option Nat
  creatorId : Option String
  deriving DecidableEq, Repr

/-- Parameters of a `/markets` call:
`{"creatorId": ..., "limit": ..., "before": ...?}`. -/
structure ContractParams where
  creatorId : String
  limit : Nat
  before : Option Nat
  deriving DecidableEq, Repr

abbrev MarketsGetJson := ContractParams → Except ApiError (List ContractPayload)

/-- Body of the `fetch_contracts_for_user` pagination loop: break
(returning the contracts accumulated so far) on any error or an empty
page; keep the page's contracts whose `creatorId` equals `user_id`;
break after a short page or when the last element's `id` is not
truthy; otherwise continue with the derived cursor. -/
def fetchContractsAux (client : MarketsGetJson) (userId : String)
    (perPage : Nat) : Nat → Option Nat → List ContractPayload
  | 0, _ => []
  | fuel + 1, before =>
    let params : ContractParams :=
      { creatorId := userId, limit := perPage,
        before := if truthyCursor before then before else none }
    match client params with
    | .error _ => []
    | .ok page =>
      if page.isEmpty then []
      else
        let kept := page.filter fun c => c.creatorId == some userId
        if page.length < perPage then kept
        else
          let next := page.getLast?.bind ContractPayload.id
          if truthyCursor next then
            kept ++ fetchContractsAux client userId perPage fuel next
          else kept

/-- `fetch_contracts_for_user` raises `ValueError` on a non-positive
page limit and otherwise drains the loop from cursor `None`. -/
def fetch_contracts_for_user (client : MarketsGetJson) (userId : String)
    (perPage fuel : Nat) : Except String (List ContractPayload) :=
  if perPage = 0 then .error "page_limit must be positive"
  else .ok (fetchContractsAux client userId perPage fuel none)

/-- C10: in the per-subject bet and contract pagination loops, a full
page whose last payload has no truthy `id` ends the iteration right
after that page (for every remaining fuel, so no further request is
issued with an unchanged or absent cursor); and the bet drain always
starts from the loop-local cursor `None`. -/
theorem C10_falsy_cursor_stops (client : GetJson) (mclient : MarketsGetJson)
    (uid : String) (limit : Nat) (c c2 : Option Nat)
    (data : List RawPayload) (page : List ContractPayload)
    (hlim : 1 ≤ limit)
    (h1 : client { userId := uid, limit := limit,
                   before := if truthyCursor c then c else none } = .ok data)
    (h2 : data.length = limit)
    (h3 : truthyCursor (data.getLast?.bind RawPayload.id) = false)
    (h4 : mclient { creatorId := uid, limit := limit,
                    before := if truthyCursor c2 then c2 else none } = .ok page)
    (h5 : page.length = limit)
    (h6 : truthyCursor (page.getLast?.bind ContractPayload.id) = false) :
    (∀ fuel, fetchBetPagesAux client uid limit (fuel + 1) c = [data]) ∧
    (∀ fuel, fetchContractsAux mclient uid limit (fuel + 1) c2 =
      page.filter fun x => x.creatorId == some uid) ∧
    (∀ f, fetch_all_bet_payloads client uid limit f =
      (fetchBetPagesAux client uid limit f none).flatten) := by
  refine ⟨?_, ?_, fun _ => rfl⟩
  · intro fuel
    rw [fetchBetPagesAux]
    have hne : ¬data.isEmpty := by
      simp [List.isEmpty_iff, ← List.length_pos_iff_ne_nil]
      omega
    have hns : ¬data.length < limit := by omega
    simp [h1, hne, hns, h3]
  · intro fuel
    rw [fetchContractsAux]
    have hne : ¬page.isEmpty := by
      simp [List.isEmpty_iff, ← List.length_pos_iff_ne_nil]
      omega
    have hns : ¬page.length < limit := by omega
    simp [h4, hne, hns, h6]

/-- Stub bets endpoint for the C10 witness: always returns one full
page of two payloads whose last element has no `id`. -/
def c10BetsClient : GetJson := fun _ => .ok [⟨some 7⟩, ⟨none⟩]

/-- Stub markets endpoint for the C10 witness: one full page whose
last element has no truthy `id`; only the first contract belongs to
the queried creator. -/
def c10MarketsClient : MarketsGetJson :=
  fun _ => .ok [⟨some 7, some "u"⟩, ⟨some 0, none⟩]

/-- C10 witness at a concrete endpoint and page size 2. -/
theorem C10_falsy_cursor_stops_witness :
    (∀ fuel, fetchBetPagesAux c10BetsClient "u" 2 (fuel + 1) none =
      [[⟨some 7⟩, ⟨none⟩]]) ∧
    (∀ fuel, fetchContractsAux c10MarketsClient "u" 2 (fuel + 1) none =
      [⟨some 7, some "u"⟩, ⟨some 0, none⟩].filter
        fun x => x.creatorId == some "u") ∧
    (∀ f, fetch_all_bet_payloads c10BetsClient "u" 2 f =
      (fetchBetPagesAux c10BetsClient "u" 2 f none).flatten) :=
  C10_falsy_cursor_stops c10BetsClient c10MarketsClient "u" 2 none none
    [⟨some 7⟩, ⟨none⟩] [⟨some 7, some "u"⟩, ⟨some 0, none⟩]
    (by decide) rfl (by decide) (by decide) rfl (by decide) (by decide)

/-! ## Threshold Gate: `quick_check`
(src/manifold/etl/src/extract/bets.py, lines 29-56). -/

/-- `quick_check(client, user_id, username, threshold)`: one `get_json`
call with `limit = threshold + 1`; a 404 or any other raised error is
caught, logged and mapped to `False`; otherwise the subject qualifies
iff the returned count is at least `threshold`. The second component
is the trace of `get_json` calls issued. -/
def quick_check (client : GetJson) (userId username : String)
    (threshold : Nat) : Bool × List Params :=
  let params : Params :=
    { userId := userId, limit := threshold + 1, before := none }
  match client params with
  | .error e =>
    match e with
    | .notFound _ => (false, [params])
    | .http _ _ => (false, [params])
    | .other _ => (false, [params])
  | .ok data => (decide (threshold ≤ data.length), [params])

/-- C4: for every subject and threshold, `quick_check` issues exactly
one paginated call with `limit = threshold + 1`, returns `true` iff
that call succeeds with a count `≥ threshold`, maps every error
(404 included) to `false`, and never raises (it is a total function
into `Bool`). -/
theorem C4_quick_check (client : GetJson) (userId username : String)
    (threshold : Nat) :
    (quick_check client userId username threshold).2 =
      [Params.mk userId (threshold + 1) none] ∧
    ((quick_check client userId username threshold).1 = true ↔
      ∃ data, client (Params.mk userId (threshold + 1) none) = .ok data ∧
        threshold ≤ data.length) ∧
    (∀ e, client (Params.mk userId (threshold + 1) none) = .error e →
      (quick_check client userId username threshold).1 = false) := by
  cases hcall : client (Params.mk userId (threshold + 1) none) with
  | error e =>
    cases e <;> simp [quick_check, hcall]
  | ok data =>
    simp [quick_check, hcall]

/-! ## Resilient Client: `ManifoldClient._request`
(src/manifold/etl/src/utils/manifold.py, lines 41-74, and the
identical retry loop in src/manifold_etl/src/utils/manifold.py,
lines 33-70). -/

/-- An HTTP response as seen by the retry loop: status code and the
optional `Retry-After` header. -/
structure HttpResponse where
  status : Nat
  retryAfter : Option String
  deriving DecidableEq, Repr

/-- How one logical `_request` call ends: a returned response, a
re-raised transport exception (`requests.RequestException`), a
`ValueError` raised by `float(retry_after)`, or the post-loop
`RuntimeError("Exceeded maximum retries for request")`. -/
inductive ReqOutcome where
  | response (r : HttpResponse)
  | transportError (msg : String)
  | valueError (s : String)
  | retriesExceeded
  deriving DecidableEq, Repr

/-- Stub transport: the behaviour of `self.session.request(...)` on a
given (1-based) attempt — either a raised transport exception or a
response. -/
abbrev Transport := Nat → Except String HttpResponse

/-- Strip leading ASCII whitespace. -/
def dropWs : List Char → List Char
  | [] => []
  | c :: rest =>
    if c = ' ' ∨ c = '\t' ∨ c = '\n' ∨ c = '\r' ∨ c = '\x0b' ∨ c = '\x0c'
    then dropWs rest
    else c :: rest

/-- Consume a maximal run of ASCII digits, returning how many were
consumed and the rest. -/
def takeDigits : List Char → Nat × List Char
  | [] => (0, [])
  | c :: rest =>
    if c.isDigit then
      let r := takeDigits rest
      (r.1 + 1, r.2)
    else (0, c :: rest)

/-- Recognize an exponent suffix `([eE][+-]?digits)` that must consume
the whole remaining input. -/
def expSuffixOk : List Char → Bool
  | [] => false
  | c :: rest =>
    if c = 'e' ∨ c = 'E' then
      let rest1 := match rest with
        | d :: r2 => if d = '+' ∨ d = '-' then r2 else d :: r2
        | [] => []
      let r := takeDigits rest1
      decide (1 ≤ r.1) && r.2.isEmpty
    else false

/-- Recognize `digits [. digits] [exp]` or `. digits [exp]` with at
least one digit overall, consuming the whole input. -/
def mantissaOk (s : List Char) : Bool :=
  let r1 := takeDigits s
  match r1.2 with
  | '.' :: r2 =>
    let r3 := takeDigits r2
    decide (1 ≤ r1.1 + r3.1) && (r3.2.isEmpty || expSuffixOk r3.2)
  | rest => decide (1 ≤ r1.1) && (rest.isEmpty || expSuffixOk rest)

/-- The strings accepted by Python's `float()` — optional surrounding
whitespace, optional sign, then a decimal literal or a case-insensitive
`inf`/`infinity`/`nan` (digit-group underscores are not modelled);
`float(s)` raises `ValueError` exactly when this is `false`. -/
def pyFloatParses (s : String) : Bool :=
  let t1 := dropWs s.toList
  let t := (dropWs t1.reverse).reverse
  match t with
  | [] => false
  | c :: rest =>
    let body := if c = '+' ∨ c = '-' then rest else c :: rest
    let lower := body.map Char.toLower
    if lower = ['i', 'n', 'f'] ∨
        lower = ['i', 'n', 'f', 'i', 'n', 'i', 't', 'y'] ∨
        lower = ['n', 'a', 'n'] then true
    else mantissaOk body

/-- The `for attempt in range(1, max_retries + 1)` retry loop of
`ManifoldClient._request`, entered at `attempt`; sleeps are dropped.
Returns the outcome and the attempt index on which the loop ended.
A transport failure on the final attempt re-raises it; a 429 on a
non-final attempt sleeps `float(retry_after)` seconds when the header
is truthy (raising `ValueError` when the value does not parse) and
retries; a 5xx on a non-final attempt retries; anything else is
returned. The post-loop `RuntimeError` is reached only when the loop
body never runs. -/
def requestAttempts (transport : Transport) (maxRetries attempt : Nat) :
    ReqOutcome × Nat :=
  if maxRetries < attempt then (.retriesExceeded, attempt - 1)
  else
    match transport attempt with
    | .error msg =>
      if attempt = maxRetries then (.transportError msg, attempt)
      else requestAttempts transport maxRetries (attempt + 1)
    | .ok resp =>
      if resp.status = 429 ∧ attempt < maxRetries then
        match resp.retryAfter with
        | some ra =>
          if ra ≠ "" then
            if pyFloatParses ra then
              requestAttempts transport maxRetries (attempt + 1)
            else (.valueError ra, attempt)
          else requestAttempts transport maxRetries (attempt + 1)
        | none => requestAttempts transport maxRetries (attempt + 1)
      else if 500 ≤ resp.status ∧ attempt < maxRetries then
        requestAttempts transport maxRetries (attempt + 1)
      else (.response resp, attempt)
termination_by maxRetries + 1 - attempt
decreasing_by all_goals omega

namespace ManifoldClient

/-- `_request(method, path, params)` with the transport behaviour
abstracted: the loop starts at attempt 1. -/
def _request (transport : Transport) (maxRetries : Nat) : ReqOutcome × Nat :=
  requestAttempts transport maxRetries 1

end ManifoldClient

/-- Success path of the retry loop: failures on attempts
`attempt, …, k` and a 2xx on attempt `k + 1 ≤ maxRetries` give back
the response on attempt `k + 1`. -/
theorem requestAttempts_ok_of_success (transport : Transport)
    (maxRetries k : Nat) (resp : HttpResponse)
    (hk : k + 1 ≤ maxRetries)
    (hfail : ∀ i, 1 ≤ i → i ≤ k → ∃ m, transport i = .error m)
    (hsucc : transport (k + 1) = .ok resp)
    (hstatus : resp.status = 200) :
    ∀ d attempt, attempt + d = k + 1 → 1 ≤ attempt →
      requestAttempts transport maxRetries attempt = (.response resp, k + 1) := by
  intro d
  induction d with
  | zero =>
    intro attempt ha h1
    have : attempt = k + 1 := by omega
    subst this
    rw [requestAttempts, if_neg (by omega : ¬maxRetries < k + 1), hsucc]
    dsimp only
    rw [if_neg (by omega : ¬(resp.status = 429 ∧ k + 1 < maxRetries)),
      if_neg (by omega : ¬(500 ≤ resp.status ∧ k + 1 < maxRetries))]
  | succ d ih =>
    intro attempt ha h1
    obtain ⟨m, hm⟩ := hfail attempt h1 (by omega)
    rw [requestAttempts, if_neg (by omega : ¬maxRetries < attempt), hm]
    dsimp only
    rw [if_neg (by omega : ¬attempt = maxRetries)]
    exact ih (attempt + 1) (by omega) (by omega)

/-- Exhaustion path of the retry loop: when the transport fails on
every attempt, the loop re-raises the transport error of attempt
`maxRetries`. -/
theorem requestAttempts_error_of_allfail (transport : Transport)
    (maxRetries : Nat) (msgs : Nat → String)
    (hfail : ∀ i, transport i = .error (msgs i)) :
    ∀ d attempt, attempt + d = maxRetries → 1 ≤ attempt →
      requestAttempts transport maxRetries attempt =
        (.transportError (msgs maxRetries), maxRetries) := by
  intro d
  induction d with
  | zero =>
    intro attempt ha h1
    have : attempt + 0 = maxRetries := ha
    rw [requestAttempts, if_neg (by omega : ¬maxRetries < attempt), hfail]
    dsimp only
    rw [if_pos (by omega : attempt = maxRetries)]
    have ham : attempt = maxRetries := by omega
    rw [ham]
  | succ d ih =>
    intro attempt ha h1
    rw [requestAttempts, if_neg (by omega : ¬maxRetries < attempt), hfail]
    dsimp only
    rw [if_neg (by omega : ¬attempt = maxRetries)]
    exact ih (attempt + 1) (by omega) (by omega)

/-- C3 (amended): with transport failures on attempts `1..k` and a 2xx
success on attempt `k + 1 ≤ max_retries`, `_request` returns the
response after exactly `k + 1` attempts; with a transport that fails on
every attempt, `_request` makes exactly `max_retries` attempts and then
re-raises the final transport error (the post-loop
`RetriesExceeded` RuntimeError is unreachable for `max_retries ≥ 1`). -/
theorem C3_retry_policy (t1 t2 : Transport) (maxRetries k : Nat)
    (resp : HttpResponse) (msgs : Nat → String)
    (hmax : 1 ≤ maxRetries) (hk : k + 1 ≤ maxRetries)
    (hfail : ∀ i, 1 ≤ i → i ≤ k → ∃ m, t1 i = .error m)
    (hsucc : t1 (k + 1) = .ok resp) (hstatus : resp.status = 200)
    (hallfail : ∀ i, t2 i = .error (msgs i)) :
    ManifoldClient._request t1 maxRetries = (.response resp, k + 1) ∧
    ManifoldClient._request t2 maxRetries =
      (.transportError (msgs maxRetries), maxRetries) ∧
    (ManifoldClient._request t2 maxRetries).1 ≠ .retriesExceeded := by
  refine ⟨?_, ?_, ?_⟩
  · exact requestAttempts_ok_of_success t1 maxRetries k resp hk hfail hsucc
      hstatus k 1 (by omega) (by omega)
  · exact requestAttempts_error_of_allfail t2 maxRetries msgs hallfail
      (maxRetries - 1) 1 (by omega) (by omega)
  · have h2 := requestAttempts_error_of_allfail t2 maxRetries msgs hallfail
      (maxRetries - 1) 1 (by omega) (by omega)
    show (requestAttempts t2 maxRetries 1).1 ≠ .retriesExceeded
    rw [h2]
    simp

/-- Transport stub that raises a connection error on every attempt. -/
def alwaysFailTransport : Transport := fun _ => .error "connection reset"

/-- Transport stub that fails on attempts 1 and 2 and returns a 200
from attempt 3 on. -/
def c3SuccTransport : Transport := fun i =>
  if i ≤ 2 then .error "timeout" else .ok ⟨200, none⟩

/-- C3 counterexample: with `max_retries = 2` and a transport that
always fails, `_request` re-raises the transport error after the 2nd
attempt; it does not raise the fatal `RetriesExceeded` error the claim
describes. -/
theorem C3_retry_policy_counterexample :
    ManifoldClient._request alwaysFailTransport 2 =
      (.transportError "connection reset", 2) ∧
    (ManifoldClient._request alwaysFailTransport 2).1 ≠
      .retriesExceeded := by
  have h := requestAttempts_error_of_allfail alwaysFailTransport 2
    (fun _ => "connection reset") (fun _ => rfl) 1 1 (by omega) (by omega)
  refine ⟨h, ?_⟩
  show (requestAttempts alwaysFailTransport 2 1).1 ≠ .retriesExceeded
  rw [h]
  simp

/-- C3 witness: the spec's own scenario — fail twice then succeed on
attempt 3 with `max_retries = 5`, and an always-failing transport. -/
theorem C3_retry_policy_witness :
    ManifoldClient._request c3SuccTransport 5 =
      (.response ⟨200, none⟩, 3) ∧
    ManifoldClient._request alwaysFailTransport 5 =
      (.transportError "connection reset", 5) ∧
    (ManifoldClient._request alwaysFailTransport 5).1 ≠
      .retriesExceeded :=
  C3_retry_policy c3SuccTransport alwaysFailTransport 5 2 ⟨200, none⟩
    (fun _ => "connection reset") (by omega) (by omega)
    (fun i h1 h2 => ⟨"timeout", by simp [c3SuccTransport, h2]⟩)
    (by simp [c3SuccTransport]) rfl (fun _ => rfl)

/-- C9: a 429 response on attempt 1 (a non-final attempt, since
`1 < max_retries`) whose `Retry-After` header is truthy but not
parseable as a Python float makes `_request` raise `ValueError` from
the `float(...)` conversion, aborting the logical call after one
attempt even though retry budget remains. -/
theorem C9_retry_after_valueerror (transport : Transport)
    (maxRetries : Nat) (resp : HttpResponse) (ra : String)
    (hfirst : transport 1 = .ok resp) (hstatus : resp.status = 429)
    (hra : resp.retryAfter = some ra) (hne : ra ≠ "")
    (hparse : pyFloatParses ra = false) (hbudget : 1 < maxRetries) :
    ManifoldClient._request transport maxRetries = (.valueError ra, 1) ∧
    1 < maxRetries := by
  refine ⟨?_, hbudget⟩
  show requestAttempts transport maxRetries 1 = (.valueError ra, 1)
  rw [requestAttempts, if_neg (by omega : ¬maxRetries < 1), hfirst]
  dsimp only
  rw [if_pos ⟨hstatus, hbudget⟩, hra]
  dsimp only
  rw [if_pos hne, hparse]
  rw [if_neg (by simp)]

/-- Transport stub for the C9 witness: every attempt yields a 429
whose `Retry-After` is an HTTP-date, which `float()` cannot parse. -/
def c9Transport : Transport :=
  fun _ => .ok ⟨429, some "Wed, 21 Oct 2015 07:28:00 GMT"⟩

/-- C9 witness: with `max_retries = 5`, the call aborts with
`ValueError` on attempt 1. -/
theorem C9_retry_after_valueerror_witness :
    ManifoldClient._request c9Transport 5 =
      (.valueError "Wed, 21 Oct 2015 07:28:00 GMT", 1) ∧
    1 < 5 :=
  C9_retry_after_valueerror c9Transport 5
    ⟨429, some "Wed, 21 Oct 2015 07:28:00 GMT"⟩
    "Wed, 21 Oct 2015 07:28:00 GMT" rfl rfl rfl (by decide)
    (by decide) (by decide)

/-! ## Adaptive Batch Writer: the `while pending_batches:` loop of
`run_bets_stage` (src/manifold_etl/src/main.py, lines 186-219). -/

theorem pow3_add_pow3_lt (a b : Nat) (ha : 1 ≤ a) (hb : 1 ≤ b) :
    3 ^ a + 3 ^ b < 3 ^ (a + b) := by
  have h1 : 3 ^ a ≤ 3 ^ (a + b - 1) := Nat.pow_le_pow_right (by omega) (by omega)
  have h2 : 3 ^ b ≤ 3 ^ (a + b - 1) := Nat.pow_le_pow_right (by omega) (by omega)
  have h3 : 3 ^ (a + b) = 3 * 3 ^ (a + b - 1) := by
    rw [← pow_succ']
    congr 1
    omega
  have h4 : 1 ≤ 3 ^ (a + b - 1) := Nat.one_le_pow _ _ (by omega)
  omega

/-- The adaptive batch-write loop of `run_bets_stage`: `pending` is the
`pending_batches` stack with its top at the head (the Python list pops
from its tail and appends `second_half` then `first_half`, so the first
half is retried first). `bad r = true` models a record on which
`loader.upsert_clean` raises `ProgrammingError` for every batch
containing it; a batch with no bad record succeeds. Returns the records
handed to successful upserts (whose total length the code adds to
`bets_upserted_this_batch`) and the records dropped after being
isolated in singleton batches (counted in `failed_bets_this_batch`). -/
def processPendingBatches (bad : α → Bool) : List (List α) → List α × List α
  | [] => ([], [])
  | batch :: pending =>
    if h1 : batch.any bad then
      if h2 : batch.length = 1 then
        ((processPendingBatches bad pending).1,
          batch ++ (processPendingBatches bad pending).2)
      else
        processPendingBatches bad
          ((if (batch.take (max 1 (batch.length / 2))).isEmpty then []
              else [batch.take (max 1 (batch.length / 2))]) ++
            (if (batch.drop (max 1 (batch.length / 2))).isEmpty then []
              else [batch.drop (max 1 (batch.length / 2))]) ++ pending)
    else
      (batch ++ (processPendingBatches bad pending).1,
        (processPendingBatches bad pending).2)
termination_by pending => (pending.map fun b => 3 ^ b.length).sum
decreasing_by
  all_goals
    first
    | (have hpow := Nat.one_le_pow batch.length 3 (by omega)
       simp only [List.map_cons, List.sum_cons]
       omega)
    | (have hlen : 1 ≤ batch.length := by
         rcases batch with _ | ⟨x, xs⟩
         · simp at h1
         · simp
       have hlen2 : 2 ≤ batch.length := by omega
       have hfe : ¬(batch.take (max 1 (batch.length / 2))).isEmpty := by
         simp only [List.isEmpty_iff, ← List.length_pos_iff_ne_nil,
           List.length_take]
         omega
       have hse : ¬(batch.drop (max 1 (batch.length / 2))).isEmpty := by
         simp only [List.isEmpty_iff, ← List.length_pos_iff_ne_nil,
           List.length_drop]
         omega
       simp only [hfe, hse, if_false, dite_false, Bool.false_eq_true,
         List.map_cons, List.map_append, List.sum_cons, List.sum_append,
         List.map_nil, List.sum_nil, List.length_take, List.length_drop]
       have harith := pow3_add_pow3_lt
         (min (max 1 (batch.length / 2)) batch.length)
         (batch.length - max 1 (batch.length / 2)) (by omega) (by omega)
       have hsum : min (max 1 (batch.length / 2)) batch.length +
           (batch.length - max 1 (batch.length / 2)) = batch.length := by
         omega
       rw [hsum] at harith
       omega)

theorem length_filter_add_length_filter_not (p : α → Bool) (l : List α) :
    (l.filter p).length + (l.filter fun a => !p a).length = l.length := by
  induction l with
  | nil => rfl
  | cons a l ih =>
    cases h : p a <;> simp [List.filter_cons, h, ← ih] <;> omega

/-- The bisection loop upserts exactly the records no failing batch
contains and drops exactly the bad ones, whatever the initial
batching. -/
theorem processPendingBatches_spec (bad : α → Bool) (pending : List (List α)) :
    List.Perm (processPendingBatches bad pending).1
      (pending.flatten.filter fun r => !bad r) ∧
    List.Perm (processPendingBatches bad pending).2
      (pending.flatten.filter bad) := by
  induction pending using processPendingBatches.induct bad with
  | case1 => simp [processPendingBatches]
  | case2 batch pending h1 h2 ih =>
    obtain ⟨x, hx⟩ : ∃ x, batch = [x] := by
      cases batch with
      | nil => simp at h2
      | cons y ys =>
        cases ys with
        | nil => exact ⟨y, rfl⟩
        | cons z zs => simp at h2
    have hbadx : bad x = true := by
      subst hx
      simpa using h1
    rw [processPendingBatches, dif_pos h1, dif_pos h2]
    subst hx
    simp only [List.flatten_cons, List.filter_append, List.filter_cons,
      hbadx, Bool.not_true, List.filter_nil]
    constructor
    · simpa using ih.1
    · simp only [cond_true, List.singleton_append, List.nil_append]
      exact ih.2.cons x
  | case3 batch pending h1 h2 ih =>
    rw [processPendingBatches, dif_pos h1, dif_neg h2]
    have hbne : batch ≠ [] := by
      intro hcon
      rw [hcon] at h1
      simp at h1
    have hlen2 : 2 ≤ batch.length := by
      have : batch.length ≠ 0 := by
        simpa [List.length_eq_zero] using hbne
      omega
    have hfe : ¬(batch.take (max 1 (batch.length / 2))).isEmpty := by
      simp only [List.isEmpty_iff, ← List.length_pos_iff_ne_nil,
        List.length_take]
      omega
    have hse : ¬(batch.drop (max 1 (batch.length / 2))).isEmpty := by
      simp only [List.isEmpty_iff, ← List.length_pos_iff_ne_nil,
        List.length_drop]
      omega
    simp only [hfe, hse, if_false, Bool.false_eq_true] at ih ⊢
    have hflat : (List.take (max 1 (batch.length / 2)) batch ::
        List.drop (max 1 (batch.length / 2)) batch :: pending).flatten =
        (batch :: pending).flatten := by
      simp only [List.flatten_cons, ← List.append_assoc,
        List.take_append_drop]
    simp only [List.singleton_append, List.cons_append, List.nil_append]
      at ih ⊢
    rw [← hflat]
    exact ih
  | case4 batch pending h1 ih =>
    rw [processPendingBatches, dif_neg h1]
    have hgood : ∀ x ∈ batch, bad x = false := by
      intro x hx
      by_contra hcon
      exact h1 (List.any_eq_true.mpr ⟨x, hx, by simpa using hcon⟩)
    have hf1 : batch.filter (fun r => !bad r) = batch :=
      List.filter_eq_self.mpr (by intro a ha; simp [hgood a ha])
    have hf2 : batch.filter bad = [] :=
      List.filter_eq_nil_iff.mpr (by intro a ha; simp [hgood a ha])
    simp only [List.flatten_cons, List.filter_append, hf1, hf2,
      List.nil_append]
    exact ⟨ih.1.append_left batch, ih.2⟩

/-- C2: when exactly one record in the batched work makes the write
fail (any batch containing it fails, all others succeed), the adaptive
loop upserts every other record (in some batching order), drops exactly
the one failing record after isolating it in a singleton batch,
terminates (the loop is a total function), and the rows-upserted total
is the number of non-failing records. -/
theorem C2_adaptive_batch_write (bad : α → Bool) (pending : List (List α))
    (hone : (pending.flatten.filter bad).length = 1) :
    (processPendingBatches bad pending).1.length =
      pending.flatten.length - 1 ∧
    List.Perm (processPendingBatches bad pending).1
      (pending.flatten.filter fun r => !bad r) ∧
    (processPendingBatches bad pending).2 = pending.flatten.filter bad := by
  obtain ⟨hp1, hp2⟩ := processPendingBatches_spec bad pending
  refine ⟨?_, hp1, ?_⟩
  · rw [hp1.length_eq]
    have := length_filter_add_length_filter_not bad pending.flatten
    omega
  · obtain ⟨x, hx⟩ : ∃ x, pending.flatten.filter bad = [x] := by
      cases hf : pending.flatten.filter bad with
      | nil => rw [hf] at hone; simp at hone
      | cons y ys =>
        cases ys with
        | nil => exact ⟨y, rfl⟩
        | cons z zs => rw [hf] at hone; simp at hone
    rw [hx] at hp2 ⊢
    exact List.perm_singleton.mp hp2

/-- C2 witness: a batch of 10 records where record #7 (value 6) fails
yields 9 upserted records and exactly that one dropped record. -/
theorem C2_adaptive_batch_write_witness :
    (processPendingBatches (fun r => r == 6) [List.range 10]).1.length = 9 ∧
    List.Perm (processPendingBatches (fun r => r == 6) [List.range 10]).1
      [0, 1, 2, 3, 4, 5, 7, 8, 9] ∧
    (processPendingBatches (fun r => r == 6) [List.range 10]).2 = [6] :=
  C2_adaptive_batch_write (fun r => r == 6) [List.range 10] (by decide)

/-! ## Chunked Harvester: `_process_users` / `process_bet_chunk`
(src/manifold/etl/src/extract/bets.py, lines 96-155). -/

/-- A subject handed to the harvester: a `(user_id, username)` pair. -/
abbrev Subject := String × String

/-- What processing one subject does, as observed through the client:
`raise` when an exception escapes into the loop's `except` clause, or
`run qc payloads` when `quick_check` returns `qc` and (if it
qualifies) `fetch_all_bet_payloads` returns `payloads`; the claims
assume a deterministic per-subject fetch. -/
inductive SubjectOutcome where
  | raise
  | run (qc : Bool) (payloads : List RawPayload)

/-- `_process_users`: iterate the chunk; skip a subject when
`quick_check` fails or the fetched payload list is empty; otherwise
accumulate its payloads and count it as processed; any exception for
one subject is caught and logged and the loop continues. -/
def _process_users (env : Subject → SubjectOutcome) :
    List Subject → List RawPayload × Nat
  | [] => ([], 0)
  | s :: rest =>
    match env s with
    | .raise => _process_users env rest
    | .run qc payloads =>
      if !qc then _process_users env rest
      else if payloads.isEmpty then _process_users env rest
      else (payloads ++ (_process_users env rest).1,
        (_process_users env rest).2 + 1)

/-- The `for future in as_completed(futures)` merge loop: extend the
accumulator with each worker's payloads (skipping empty ones) and add
its qualifying count; `completed` is the nondeterministic completion
order. -/
def mergeWorkerResults (completed : List (List RawPayload × Nat)) :
    List RawPayload × Nat :=
  completed.foldl
    (fun acc r =>
      ((if r.1.isEmpty then acc.1 else acc.1 ++ r.1), acc.2 + r.2))
    ([], 0)

/-- The contiguous sub-chunk size used by `process_bet_chunk`:
`max(1, ceil(len / worker_count))`. -/
def subChunkSize (len workerCount : Nat) : Nat :=
  max 1 ((len + workerCount - 1) / workerCount)

/-- `process_bet_chunk`: with one worker (or a chunk of at most one
subject) process sequentially; otherwise fan the contiguous sub-chunks
`user_list[i : i + sub_chunk_size]` out to workers running
`_process_users` and merge their results in completion order
(`completed` abstracts the nondeterministic `as_completed` order; the
theorems quantify over every permutation of the per-sub-chunk
results). -/
def process_bet_chunk (env : Subject → SubjectOutcome)
    (userChunk : List Subject) (workerCount : Nat)
    (completed : List (List RawPayload × Nat)) : List RawPayload × Nat :=
  let workerCount := max 1 workerCount
  if workerCount = 1 ∨ userChunk.length ≤ 1 then
    _process_users env userChunk
  else
    mergeWorkerResults completed

theorem _process_users_append (env : Subject → SubjectOutcome)
    (l1 l2 : List Subject) :
    _process_users env (l1 ++ l2) =
      ((_process_users env l1).1 ++ (_process_users env l2).1,
        (_process_users env l1).2 + (_process_users env l2).2) := by
  induction l1 with
  | nil => simp [_process_users]
  | cons s rest ih =>
    rw [List.cons_append, _process_users, _process_users]
    cases env s with
    | raise => exact ih
    | run qc payloads =>
      cases qc with
      | false => simpa using ih
      | true =>
        by_cases hp : payloads.isEmpty
        · simpa [hp] using ih
        · simp only [hp, Bool.not_true, Bool.false_eq_true, if_false,
            if_neg, ih]
          simp [List.append_assoc]
          omega

theorem mergeWorkerResults_eq (completed : List (List RawPayload × Nat)) :
    mergeWorkerResults completed =
      ((completed.map Prod.fst).flatten, (completed.map Prod.snd).sum) := by
  suffices h : ∀ acc : List RawPayload × Nat,
      completed.foldl
        (fun acc r =>
          ((if r.1.isEmpty then acc.1 else acc.1 ++ r.1), acc.2 + r.2)) acc =
      (acc.1 ++ (completed.map Prod.fst).flatten,
        acc.2 + (completed.map Prod.snd).sum) by
    rw [mergeWorkerResults, h ([], 0)]
    simp
  induction completed with
  | nil => intro acc; simp
  | cons r rest ih =>
    intro acc
    rw [List.foldl_cons, ih]
    have hfst : (if r.1.isEmpty then acc.1 else acc.1 ++ r.1) =
        acc.1 ++ r.1 := by
      by_cases hr : r.1.isEmpty
      · rw [if_pos hr, List.isEmpty_iff.mp hr, List.append_nil]
      · rw [if_neg hr]
    rw [hfst]
    simp [List.append_assoc]
    omega

/-- Merging the per-sub-chunk results in submission order is exactly
sequential processing. -/
theorem mergeWorkerResults_chunkPages (env : Subject → SubjectOutcome)
    (s : Nat) (l : List Subject) :
    mergeWorkerResults ((chunkPages s l).map (_process_users env)) =
      _process_users env l := by
  induction l using chunkPages.induct s with
  | case1 => simp [chunkPages_nil, mergeWorkerResults, _process_users]
  | case2 a l ih =>
    rw [chunkPages_cons, List.map_cons, mergeWorkerResults_eq,
      List.map_cons, List.map_cons, List.flatten_cons, List.sum_cons]
    rw [mergeWorkerResults_eq] at ih
    have happ := _process_users_append env (a :: l.take (s - 1))
      (l.drop (s - 1))
    rw [List.cons_append, List.take_append_drop] at happ
    rw [happ]
    rw [Prod.mk.injEq] at ih ⊢
    exact ⟨by rw [ih.1], by rw [ih.2]⟩

theorem perm_flatten_of_perm {l₁ l₂ : List (List α)} (h : List.Perm l₁ l₂) :
    List.Perm l₁.flatten l₂.flatten := by
  induction h with
  | nil => exact .rfl
  | cons x h ih => simpa using ih.append_left x
  | swap x y l =>
    simp only [List.flatten_cons, ← List.append_assoc]
    exact List.perm_append_comm.append_right _
  | trans h1 h2 ih1 ih2 => exact ih1.trans ih2

/-- C5: for a chunk of at least 2 subjects and `worker_count ≥ 2`, the
chunked harvester partitions the chunk into contiguous sub-chunks of
size `⌈len / worker_count⌉`, processes each independently and merges by
concatenation in completion order, so for every completion order the
payload multiset and the qualifying-user count equal those of
sequential processing (`worker_count = 1`). -/
theorem C5_chunked_harvester (env : Subject → SubjectOutcome)
    (userChunk : List Subject) (workerCount : Nat)
    (completed : List (List RawPayload × Nat))
    (hw : 2 ≤ workerCount) (hlen : 2 ≤ userChunk.length)
    (hcompleted : List.Perm completed
      ((chunkPages (subChunkSize userChunk.length workerCount)
        userChunk).map (_process_users env))) :
    List.Perm (process_bet_chunk env userChunk workerCount completed).1
      (process_bet_chunk env userChunk 1 []).1 ∧
    (process_bet_chunk env userChunk workerCount completed).2 =
      (process_bet_chunk env userChunk 1 []).2 := by
  have hseq : process_bet_chunk env userChunk 1 [] =
      _process_users env userChunk := by
    rw [process_bet_chunk]
    rw [if_pos (Or.inl (by simp))]
  have hpar : process_bet_chunk env userChunk workerCount completed =
      mergeWorkerResults completed := by
    rw [process_bet_chunk]
    have hcond : ¬(max 1 workerCount = 1 ∨ userChunk.length ≤ 1) := by
      omega
    rw [if_neg hcond]
  have hparts := mergeWorkerResults_chunkPages env
    (subChunkSize userChunk.length workerCount) userChunk
  rw [mergeWorkerResults_eq] at hparts
  have e1 := congrArg Prod.fst hparts
  have e2 := congrArg Prod.snd hparts
  simp only at e1 e2
  rw [hseq, hpar, mergeWorkerResults_eq]
  constructor
  · exact e1 ▸ perm_flatten_of_perm (hcompleted.map Prod.fst)
  · rw [show ((completed.map Prod.snd).sum) = _ from
      (hcompleted.map Prod.snd).sum_eq, e2]

/-- Environment for the C5 witness: one subject below threshold, the
rest each contributing two payloads. -/
def c5Env : Subject → SubjectOutcome := fun s =>
  if s.2 = "skip" then .run false []
  else .run true [⟨some 1⟩, ⟨some 2⟩]

def c5Chunk : List Subject :=
  [("u1", "a"), ("u2", "skip"), ("u3", "b"), ("u4", "c")]

def c5Completed : List (List RawPayload × Nat) :=
  (chunkPages (subChunkSize c5Chunk.length 2) c5Chunk).map
    (_process_users c5Env)

/-- C5 witness: 4 subjects, 2 workers. -/
theorem C5_chunked_harvester_witness :
    List.Perm (process_bet_chunk c5Env c5Chunk 2 c5Completed).1
      (process_bet_chunk c5Env c5Chunk 1 []).1 ∧
    (process_bet_chunk c5Env c5Chunk 2 c5Completed).2 =
      (process_bet_chunk c5Env c5Chunk 1 []).2 :=
  C5_chunked_harvester c5Env c5Chunk 2 c5Completed (by decide)
    (by decide) (List.Perm.refl _)

/-- C6: an error raised while processing one subject is caught and
logged and does not abort the others: the harvest of a chunk with the
erroring subject removed is identical — every other subject is still
attempted and contributes the same payloads and qualifying count. -/
theorem C6_subject_error_isolation (env : Subject → SubjectOutcome)
    (s : Subject) (l1 l2 : List Subject) (herr : env s = .raise) :
    _process_users env (l1 ++ s :: l2) = _process_users env (l1 ++ l2) := by
  induction l1 with
  | nil =>
    simp only [List.nil_append]
    rw [_process_users, herr]
  | cons a rest ih =>
    rw [List.cons_append, List.cons_append, _process_users, _process_users]
    cases env a with
    | raise => exact ih
    | run qc payloads =>
      cases qc with
      | false => simpa using ih
      | true =>
        by_cases hp : payloads.isEmpty
        · simpa [hp] using ih
        · simp [hp, ih]

/-- Environment for the C6 witness: the subject with id `bad` raises. -/
def c6Env : Subject → SubjectOutcome := fun s =>
  if s.1 = "bad" then .raise else .run true [⟨some 5⟩]

/-- C6 witness: the erroring subject between two good ones changes
nothing for them. -/
theorem C6_subject_error_isolation_witness :
    _process_users c6Env ([("u1", "a")] ++ ("bad", "x") :: [("u2", "b")]) =
      _process_users c6Env ([("u1", "a")] ++ [("u2", "b")]) :=
  C6_subject_error_isolation c6Env ("bad", "x") [("u1", "a")]
    [("u2", "b")] rfl

/-! ## Resumable Source Stream: `PostgresLoader.stream_user_chunks`
(src/manifold_etl/src/load/postgres.py, lines 273-320). -/

/-- A row of `users_clean` as read by `SELECT id, username ORDER BY id`;
the table is modelled as the list of rows in primary-key order
(`id` strictly ascending, since `id` is the primary key). -/
structure UserRow where
  id : String
  username : String
  deriving DecidableEq, Repr

/-- `stream_user_chunks(chunk_size, start_username=...)`: raise
`ValueError` on a non-positive chunk size; with a truthy
`start_username`, resolve it with
`SELECT id WHERE username = start ORDER BY id LIMIT 1` and restrict the
ordered scan to `id >= start_id` when found, else to
`username > start_username`; batch the scan into chunks of
`chunk_size`, flushing a final shorter batch. -/
def stream_user_chunks (rows : List UserRow) (chunkSize : Nat)
    (startUsername : Option String) :
    Except String (List (List (String × String))) :=
  if chunkSize = 0 then .error "chunk_size must be positive"
  else
    let filtered : List UserRow :=
      match startUsername with
      | none => rows
      | some su =>
        if su = "" then rows
        else
          match (rows.filter fun r => r.username == su).head? with
          | some row => rows.filter fun r => decide (row.id ≤ r.id)
          | none => rows.filter fun r => decide (su < r.username)
    .ok (chunkPages chunkSize (filtered.map fun r => (r.id, r.username)))

theorem head?_filter_eq_find? (p : α → Bool) (l : List α) :
    (l.filter p).head? = l.find? p := by
  induction l with
  | nil => rfl
  | cons a l ih =>
    cases h : p a <;> simp [List.filter_cons, List.find?_cons, h, ih]

/-- In a strictly id-sorted table, the scan restricted to
`id ≥ row.id` for a member row starts exactly at that row. -/
theorem head?_filter_le_of_sorted (rows : List UserRow) (row : UserRow)
    (hsorted : rows.Pairwise fun a b => a.id < b.id) (hmem : row ∈ rows) :
    (rows.filter fun r => decide (row.id ≤ r.id)).head? = some row := by
  induction rows with
  | nil => cases hmem
  | cons a l ih =>
    obtain ⟨hhead, htail⟩ := List.pairwise_cons.mp hsorted
    rcases List.mem_cons.mp hmem with h | h
    · subst h
      simp [List.filter_cons]
    · have hlt : a.id < row.id := hhead row h
      have hnotle : (decide (row.id ≤ a.id)) = false := by
        simp only [decide_eq_false_iff_not]
        exact not_le.mpr hlt
      rw [List.filter_cons, hnotle]
      exact ih htail h

/-- C7: with no start key the stream covers the whole id-ordered key
space in chunks of exactly `chunk_size` (shorter final chunk only),
with no gaps or duplicates (the chunks concatenate back to the ordered
table scan); a resolvable start label starts the stream at its
resolved id inclusive; an unresolvable one starts it at the first row
(in id order) whose label sorts strictly after the start key. -/
theorem C7_stream_user_chunks (rows : List UserRow) (chunkSize : Nat)
    (hcs : 1 ≤ chunkSize)
    (hsorted : rows.Pairwise fun a b => a.id < b.id) :
    (∃ chunks, stream_user_chunks rows chunkSize none = .ok chunks ∧
      chunks.flatten = rows.map (fun r => (r.id, r.username)) ∧
      (∀ c ∈ chunks.dropLast, c.length = chunkSize) ∧
      (∀ c ∈ chunks, c ≠ [] ∧ c.length ≤ chunkSize)) ∧
    (∀ su row, su ≠ "" →
      (rows.filter fun r => r.username == su).head? = some row →
      ∃ chunks, stream_user_chunks rows chunkSize (some su) = .ok chunks ∧
        chunks.flatten =
          (rows.filter fun r => decide (row.id ≤ r.id)).map
            (fun r => (r.id, r.username)) ∧
        chunks.flatten.head? = some (row.id, row.username) ∧
        (∀ c ∈ chunks.dropLast, c.length = chunkSize) ∧
        (∀ c ∈ chunks, c ≠ [] ∧ c.length ≤ chunkSize)) ∧
    (∀ su, su ≠ "" →
      (rows.filter fun r => r.username == su).head? = none →
      ∃ chunks, stream_user_chunks rows chunkSize (some su) = .ok chunks ∧
        chunks.flatten =
          (rows.filter fun r => decide (su < r.username)).map
            (fun r => (r.id, r.username)) ∧
        chunks.flatten.head? =
          (rows.find? fun r => decide (su < r.username)).map
            (fun r => (r.id, r.username)) ∧
        (∀ c ∈ chunks.dropLast, c.length = chunkSize) ∧
        (∀ c ∈ chunks, c ≠ [] ∧ c.length ≤ chunkSize)) := by
  have hcs0 : ¬chunkSize = 0 := by omega
  refine ⟨?_, ?_, ?_⟩
  · refine ⟨chunkPages chunkSize (rows.map fun r => (r.id, r.username)),
      ?_, ?_, ?_, ?_⟩
    · rw [stream_user_chunks, if_neg hcs0]
    · exact chunkPages_flatten _ _
    · exact chunkPages_dropLast_length _ hcs _
    · exact chunkPages_mem_length _ hcs _
  · intro su row hsu hres2
    have hmem : row ∈ rows := by
      cases hf : rows.filter (fun r => r.username == su) with
      | nil => rw [hf] at hres2; cases hres2
      | cons b bs =>
        rw [hf] at hres2
        simp only [List.head?_cons, Option.some.injEq] at hres2
        subst hres2
        exact List.mem_of_mem_filter (hf ▸ List.mem_cons_self b bs)
    refine ⟨chunkPages chunkSize
      ((rows.filter fun r => decide (row.id ≤ r.id)).map
        fun r => (r.id, r.username)), ?_, ?_, ?_, ?_, ?_⟩
    · rw [stream_user_chunks, if_neg hcs0]
      dsimp only
      rw [if_neg hsu, hres2]
    · exact chunkPages_flatten _ _
    · rw [chunkPages_flatten, List.head?_map,
        head?_filter_le_of_sorted rows row hsorted hmem]
      rfl
    · exact chunkPages_dropLast_length _ hcs _
    · exact chunkPages_mem_length _ hcs _
  · intro su hsu hres
    refine ⟨chunkPages chunkSize
      ((rows.filter fun r => decide (su < r.username)).map
        fun r => (r.id, r.username)), ?_, ?_, ?_, ?_, ?_⟩
    · rw [stream_user_chunks, if_neg hcs0]
      dsimp only
      rw [if_neg hsu, hres]
    · exact chunkPages_flatten _ _
    · rw [chunkPages_flatten, List.head?_map, head?_filter_eq_find?]
    · exact chunkPages_dropLast_length _ hcs _
    · exact chunkPages_mem_length _ hcs _

def c7Rows : List UserRow :=
  [⟨"id1", "alice"⟩, ⟨"id2", "bob"⟩, ⟨"id3", "carol"⟩,
    ⟨"id4", "dave"⟩, ⟨"id5", "erin"⟩]

/-- C7 witness: five id-sorted rows streamed in chunks of two. -/
theorem C7_stream_user_chunks_witness :
    (∃ chunks, stream_user_chunks c7Rows 2 none = .ok chunks ∧
      chunks.flatten = c7Rows.map (fun r => (r.id, r.username)) ∧
      (∀ c ∈ chunks.dropLast, c.length = 2) ∧
      (∀ c ∈ chunks, c ≠ [] ∧ c.length ≤ 2)) ∧
    (∀ su row, su ≠ "" →
      (c7Rows.filter fun r => r.username == su).head? = some row →
      ∃ chunks, stream_user_chunks c7Rows 2 (some su) = .ok chunks ∧
        chunks.flatten =
          (c7Rows.filter fun r => decide (row.id ≤ r.id)).map
            (fun r => (r.id, r.username)) ∧
        chunks.flatten.head? = some (row.id, row.username) ∧
        (∀ c ∈ chunks.dropLast, c.length = 2) ∧
        (∀ c ∈ chunks, c ≠ [] ∧ c.length ≤ 2)) ∧
    (∀ su, su ≠ "" →
      (c7Rows.filter fun r => r.username == su).head? = none →
      ∃ chunks, stream_user_chunks c7Rows 2 (some su) = .ok chunks ∧
        chunks.flatten =
          (c7Rows.filter fun r => decide (su < r.username)).map
            (fun r => (r.id, r.username)) ∧
        chunks.flatten.head? =
          (c7Rows.find? fun r => decide (su < r.username)).map
            (fun r => (r.id, r.username)) ∧
        (∀ c ∈ chunks.dropLast, c.length = 2) ∧
        (∀ c ∈ chunks, c ≠ [] ∧ c.length ≤ 2)) :=
  C7_stream_user_chunks c7Rows 2 (by decide) (by
    simp only [c7Rows]
    refine List.Pairwise.cons ?_ (List.Pairwise.cons ?_
      (List.Pairwise.cons ?_ (List.Pairwise.cons ?_
        (List.pairwise_singleton _ _))))
    all_goals
      intro b hb
      fin_cases hb <;> (rw [String.lt_iff_toList_lt]; decide))

/-! ## Rate Limiter: `RateLimiter.wait`
(src/manifold/etl/src/utils/rate_limit.py, lines 21-29). The lock
serializes the calls and is held across the sleep, so a multi-threaded
execution is a sequence of critical sections; time is modelled with
rationals, and `time.sleep(s)` sleeps `s + oversleep` for some
`oversleep ≥ 0`. -/

/-- One execution of `wait` inside its lock: `now` is the monotonic
clock on entry, `elapsed = now - self._last_request`,
`sleep_for = min_interval - elapsed`; when `sleep_for > 0` the clock is
re-read after sleeping (so it advanced by at least `sleep_for`) and
that later reading is recorded; the recorded value is the new
`_last_request`. The function is total: `wait` never raises. -/
def RateLimiter.wait (minInterval last now oversleep : ℚ) : ℚ :=
  let elapsed := now - last
  let sleepFor := minInterval - elapsed
  if 0 < sleepFor then now + sleepFor + oversleep else now

/-- A serialized sequence of `wait` calls, one `(entry time, oversleep)`
pair per call, returning the successive recorded grant timestamps. -/
def RateLimiter.run (minInterval : ℚ) : ℚ → List (ℚ × ℚ) → List ℚ
  | _, [] => []
  | last, (now, os) :: rest =>
    RateLimiter.wait minInterval last now os ::
      RateLimiter.run minInterval (RateLimiter.wait minInterval last now os) rest

/-- Each grant is at least `min_interval` after the previously recorded
grant, whatever the entry time. -/
theorem RateLimiter.wait_gap (minInterval last now os : ℚ) (hos : 0 ≤ os) :
    minInterval ≤ RateLimiter.wait minInterval last now os - last := by
  rw [RateLimiter.wait]
  by_cases h : 0 < minInterval - (now - last)
  · rw [if_pos h]
    linarith
  · rw [if_neg h]
    linarith

theorem RateLimiter.run_chain (minInterval : ℚ) (last : ℚ)
    (entries : List (ℚ × ℚ)) (hos : ∀ e ∈ entries, 0 ≤ e.2) :
    List.Chain (fun a b => a + minInterval ≤ b) last
      (RateLimiter.run minInterval last entries) := by
  induction entries generalizing last with
  | nil => exact List.Chain.nil
  | cons e rest ih =>
    obtain ⟨now, os⟩ := e
    rw [RateLimiter.run]
    refine List.Chain.cons ?_
      (ih _ fun x hx => hos x (List.mem_cons_of_mem _ hx))
    have := RateLimiter.wait_gap minInterval last now os
      (hos (now, os) (List.mem_cons_self _ _))
    linarith

theorem RateLimiter.run_length (minInterval last : ℚ)
    (entries : List (ℚ × ℚ)) :
    (RateLimiter.run minInterval last entries).length = entries.length := by
  induction entries generalizing last with
  | nil => rfl
  | cons e rest ih =>
    obtain ⟨now, os⟩ := e
    rw [RateLimiter.run]
    simp [ih]

theorem chain_span (minInterval : ℚ) (g0 : ℚ) (gs : List ℚ)
    (hchain : List.Chain (fun a b => a + minInterval ≤ b) g0 gs) :
    (gs.length : ℚ) * minInterval ≤ gs.getLastD g0 - g0 := by
  induction gs generalizing g0 with
  | nil => simp
  | cons g1 rest ih =>
    rcases hchain with _ | ⟨hstep, hrest⟩
    have hspan := ih g1 hrest
    rw [List.getLastD_cons]
    simp only [List.length_cons]
    push_cast
    rw [add_one_mul]
    linarith

/-- C8: for every serialized sequence of `wait` calls (the lock makes
every execution, single- or multi-threaded, such a sequence),
consecutive recorded grant timestamps are at least `min_interval`
apart — including the gap from the previously recorded grant before
the sequence — and `n` acquisitions span at least
`(n - 1) * min_interval`; the elapsed time is re-read after the sleep,
and `wait` is total (never raises). -/
theorem C8_rate_limiter (minInterval last : ℚ) (entries : List (ℚ × ℚ))
    (hos : ∀ e ∈ entries, 0 ≤ e.2) :
    List.Chain (fun a b => a + minInterval ≤ b) last
      (RateLimiter.run minInterval last entries) ∧
    (RateLimiter.run minInterval last entries).length = entries.length ∧
    (∀ g0 gs, RateLimiter.run minInterval last entries = g0 :: gs →
      (gs.length : ℚ) * minInterval ≤ gs.getLastD g0 - g0) := by
  refine ⟨RateLimiter.run_chain minInterval last entries hos,
    RateLimiter.run_length minInterval last entries, ?_⟩
  intro g0 gs hrun
  have hchain := RateLimiter.run_chain minInterval last entries hos
  rw [hrun] at hchain
  rcases hchain with _ | ⟨_, hrest⟩
  exact chain_span minInterval g0 gs hrest

/-- C8 witness: five immediate acquisitions with `min_interval = 1/10`
starting from grant time 0 span at least `4 * (1/10)`. -/
theorem C8_rate_limiter_witness :
    List.Chain (fun a b => a + (1 / 10 : ℚ) ≤ b) 0
      (RateLimiter.run (1 / 10) 0 [(0, 0), (0, 0), (0, 0), (0, 0), (0, 0)]) ∧
    (RateLimiter.run (1 / 10) 0
      [(0, 0), (0, 0), (0, 0), (0, 0), (0, 0)]).length = 5 ∧
    (∀ g0 gs, RateLimiter.run (1 / 10) 0
        [(0, 0), (0, 0), (0, 0), (0, 0), (0, 0)] = g0 :: gs →
      (gs.length : ℚ) * (1 / 10) ≤ gs.getLastD g0 - g0) :=
  C8_rate_limiter (1 / 10) 0 [(0, 0), (0, 0), (0, 0), (0, 0), (0, 0)]
    (by intro e he; fin_cases he <;> norm_num)
